import Mathlib

/-!
Verification of the expression-chaining engine in `uproot/_connect/to_numba.py`.

The module derives computed columns from a columnar source: textual
expressions are parsed, their free variables extracted, and a chain of
resolver steps maps requirement names to raw source columns, streaming
chunks and evaluating compiled output functions per chunk.

We embed the Python code shallowly: the sublanguage of Python reached by
the module's expression strings becomes a small AST with an executable
semantics; machine behaviour that can raise becomes `Except PyErr`;
the external collaborators that are not part of this file's source
(the `uproot.tree` chunked reader, `uproot.tree._delayedraise`, the
optional numba JIT) are modelled from the spec and marked as such.
-/

namespace UprootNumba

/-- Python exception kinds that the embedded code can raise.
`nameError` also stands for `UnboundLocalError` (its subclass). -/
inductive PyErr where
  | nameError
  | typeError
  | valueError
  | indexError
  | attributeError
  deriving DecidableEq, Repr

/-- Binary operators of the expression sublanguage (`ast.BinOp` ops). -/
inductive BOp where
  | add
  | sub
  | mul
  deriving DecidableEq, Repr

/-- Expressions of the sublanguage the module's strings are parsed into:
bare names in Load context (`ast.Name`), numeric literals (`ast.Num`),
and binary operations (`ast.BinOp`). -/
inductive PExpr where
  | name (id : String)
  | num (n : Int)
  | binop (op : BOp) (l r : PExpr)
  deriving DecidableEq, Repr

/-- Statements: a bare expression statement (`ast.Expr`), a single-target
assignment (`ast.Assign` with one `ast.Name` target), a function
definition (`ast.FunctionDef`, always rejected by `string2fcn`), and a
return statement (`ast.Return`, produced only by `string2fcn`'s rewrite
of the final expression — top-level parses never contain it). -/
inductive Stmt where
  | expr (e : PExpr)
  | assign (target : String) (value : PExpr)
  | funcdefn (fname : String)
  | ret (e : PExpr)
  deriving DecidableEq, Repr

/-- The `insymbols` / `outsymbols` sets accumulated by `string2fcn.recurse`,
as insertion-ordered duplicate-free lists. -/
structure Syms where
  ins : List String
  outs : List String
  deriving DecidableEq, Repr

/-- Add a name to a set-as-list, keeping first-insertion order. -/
def addName (x : String) (xs : List String) : List String :=
  if x ∈ xs then xs else xs ++ [x]

/-- `string2fcn.recurse` on an expression: a Name in Load context is a
requirement unless already stored (`node.id not in outsymbols`). -/
def collectE (s : Syms) : PExpr → Syms
  | .name id => if id ∈ s.outs then s else { s with ins := addName id s.ins }
  | .num _ => s
  | .binop _ l r => collectE (collectE s l) r

/-- `string2fcn.recurse` on a statement.  For `ast.Assign` the `_fields`
order is `(targets, value)`, so the Store of the target is recorded
before the reads of the right-hand side are visited. -/
def collectS (s : Syms) : Stmt → Syms
  | .expr e => collectE s e
  | .assign t v => collectE { s with outs := addName t s.outs } v
  | .funcdefn _ => s
  | .ret e => collectE s e

/-- `string2fcn.recurse` over the whole parsed body. -/
def collectL (s : Syms) : List Stmt → Syms
  | [] => s
  | st :: rest => collectL (collectS s st) rest

/-- Does a statement carry an `ast.FunctionDef` (rejected by `recurse`)? -/
def isFuncDef : Stmt → Bool
  | .funcdefn _ => true
  | _ => false

/-- Insert into a lexicographically sorted list (model of Python `sorted`). -/
def insertStr (x : String) : List String → List String
  | [] => [x]
  | y :: ys => if y < x then y :: insertStr x ys else x :: y :: ys

/-- Sort a list of names lexicographically (model of Python `sorted`). -/
def sortStrs (xs : List String) : List String := xs.foldr insertStr []

/-- Values of the embedding are abstract; the source manipulates numpy
arrays elementwise, so we only require the operations the expression
sublanguage uses, plus `numpy.arange` for the synthetic entry index. -/
structure Arith (V : Type) where
  lit : Int → V
  add : V → V → V
  sub : V → V → V
  mul : V → V → V
  arange : Nat → Nat → V

/-- Local environment of an executing function body: assignments shadow
earlier bindings (association list, most recent first). -/
abbrev Env (V : Type) := List (String × V)

/-- Evaluate an expression given a name-resolution function. -/
def evalE {V : Type} (A : Arith V) (look : String → Except PyErr V) : PExpr → Except PyErr V
  | .name n => look n
  | .num k => .ok (A.lit k)
  | .binop op l r => do
    let a ← evalE A look l
    let b ← evalE A look r
    .ok (match op with
      | .add => A.add a b
      | .sub => A.sub a b
      | .mul => A.mul a b)

/-- Name resolution inside a compiled function body: a name statically
classified as local (a parameter or assigned anywhere in the body) reads
the environment and is unbound if absent; any other name reads the
function's globals (`math.__dict__` in `makefcn`). -/
def lookupLocal {V : Type} (locset : List String) (g : String → Option V)
    (env : Env V) (n : String) : Except PyErr V :=
  if n ∈ locset then
    match env.lookup n with
    | some v => .ok v
    | none => .error .nameError
  else
    match g n with
    | some v => .ok v
    | none => .error .nameError

/-- Name resolution for module-level execution of the raw text under
given bindings: the environment only. -/
def lookupPlain {V : Type} (env : Env V) (n : String) : Except PyErr V :=
  match env.lookup n with
  | some v => .ok v
  | none => .error .nameError

/-- Execute a statement sequence: expression statements discard their
value, assignments extend the environment, `return` stops with a value,
a body falling off the end returns Python `None` (`Option.none`). -/
def execB {V : Type} (A : Arith V) (look : Env V → String → Except PyErr V) :
    Env V → List Stmt → Except PyErr (Env V × Option V)
  | env, [] => .ok (env, none)
  | env, .expr e :: rest => do
    let _ ← evalE A (look env) e
    execB A look env rest
  | env, .assign t v :: rest => do
    let x ← evalE A (look env) v
    execB A look ((t, x) :: env) rest
  | env, .ret e :: _ => do
    let x ← evalE A (look env) e
    .ok (env, some x)
  | env, .funcdefn _ :: rest => execB A look env rest

/-- A compiled Python function as the chain code observes it:
`varnames` is `__code__.co_varnames` (parameters first, then the other
local variables in first-binding order), `arity` is the parameter count,
and `run` is the behaviour on exactly `arity` arguments. -/
structure PyFcn (V : Type) where
  varnames : List String
  arity : Nat
  run : List V → Except PyErr (Option V)

/-- Call a Python function: wrong argument count raises `TypeError`. -/
def PyFcn.call {V : Type} (f : PyFcn V) (args : List V) : Except PyErr (Option V) :=
  if args.length = f.arity then f.run args else .error .typeError

/-- `string2fcn`'s rewrite of the final statement: a trailing bare
expression becomes a `return` of its value. -/
def rewriteLast : List Stmt → List Stmt
  | [] => []
  | [Stmt.expr e] => [Stmt.ret e]
  | [s] => [s]
  | s :: rest => s :: rewriteLast rest

/-- The free (required) names of a parsed text, exactly as `string2fcn`
computes them: `sorted(insymbols)`. -/
def freeNames (body : List Stmt) : List String :=
  sortStrs (collectL ⟨[], []⟩ body).ins

/-- The statically-local names of the synthesized function body:
its parameters together with every assigned name. -/
def localNames (body : List Stmt) : List String :=
  freeNames body ++ (collectL ⟨[], []⟩ body).outs

/-- `string2fcn`, lines 57-92 of the source, over an already parsed body.
`recurse` raises `TypeError` on any `ast.FunctionDef`; an empty body
raises `TypeError`; otherwise the final bare expression is rewritten to
a `return`, and a function is synthesized whose parameters are the
sorted free names and whose globals are `math.__dict__` (the parameter
`g`).  Its `co_varnames` lists the parameters first and then the other
locals in first-binding order. -/
def string2fcn {V : Type} (A : Arith V) (g : String → Option V)
    (body : List Stmt) : Except PyErr (PyFcn V) :=
  if body.any isFuncDef then .error .typeError
  else if body.isEmpty then .error .typeError
  else
    let syms := collectL ⟨[], []⟩ body
    let params := sortStrs syms.ins
    let body' := rewriteLast body
    let locset := params ++ syms.outs
    .ok { varnames := params ++ syms.outs.filter (fun n => ¬ params.contains n)
        , arity := params.length
        , run := fun args =>
            (execB A (lookupLocal locset g) (params.zip args) body').map (·.2) }

/-- Modelled from the spec: "the same value as evaluating `e` directly
with those bindings" — run the statements before the final expression at
module level with the text's free variables bound by `σ`, then evaluate
the final expression; reads resolve through the current environment only. -/
def directEval {V : Type} (A : Arith V) (σ : String → V)
    (init : List Stmt) (e : PExpr) : Except PyErr V := do
  let env0 : Env V := (freeNames (init ++ [Stmt.expr e])).map (fun n => (n, σ n))
  let (env, _) ← execB A lookupPlain env0 init
  evalE A (lookupPlain env) e

/-- Is an `Except` a success? -/
def isOkE {α : Type} : Except PyErr α → Bool
  | .ok _ => true
  | .error _ => false

/-- Extract a success value, with a default for the error case. -/
def getOkD {α : Type} (x : Except PyErr α) (d : α) : α :=
  match x with
  | .ok a => a
  | .error _ => d

/-- One chunk of the external tree: its entry range and total column
content.  Modelled from the spec: the external chunked source honours
the requested column-name order and yields the arrays in that order. -/
structure Chunk (V : Type) where
  lo : Nat
  hi : Nat
  col : String → V

/-- The configuration of a `ChainSource`: the alias table, the reserved
entry-index name (`entryvar`, `None` when unset), and the chunk stream
the external `tree.iterate` collaborator will produce.  `entrystepsize`,
entry bounds, caches and the read executor are absorbed into `chunks`
since they are passed through to the external source unchanged. -/
structure SourceCfg (V : Type) where
  aliases : List (String × String)
  entryvar : Option String
  chunks : List (Chunk V)

/-- The shared resolution accumulator of `_compilefcns`: the ordered
deduplicated raw column list (`branchnames`) and the entry-index flag
(`entryvars` is a set that only ever receives `None`, so a Bool). -/
structure Accum where
  branchnames : List String
  entry : Bool
  deriving DecidableEq, Repr

/-- `ChainSource._satisfy` (lines 311-321): the entry-index name only
sets the flag; any other requirement is mapped through the alias table
and appended to the column list if not already present. -/
def srcSatisfy {V : Type} (cfg : SourceCfg V) (req : String) (acc : Accum) : Accum :=
  if cfg.entryvar = some req then { acc with entry := true }
  else
    let b := (cfg.aliases.lookup req).getD req
    if b ∈ acc.branchnames then acc
    else { acc with branchnames := acc.branchnames ++ [b] }

/-- First index of a name in a list (`list.index`, `ValueError` if absent). -/
def idxOfStr (x : String) : List String → Option Nat
  | [] => none
  | y :: ys => if y = x then some 0 else (idxOfStr x ys).map (· + 1)

/-- `ChainSource._argfcn` (lines 323-329): the entry-index requirement
reads the position just past the last real column; any other requirement
is mapped through the alias table and read at its recorded position.
The numba `_compilefcn` wrapper is modelled from the spec as the
identity (the JIT has an "identical calling contract"). -/
def srcArgfcn {V : Type} (cfg : SourceCfg V) (req : String) (branchnames : List String) :
    Except PyErr (List V → Except PyErr V) :=
  if cfg.entryvar = some req then
    .ok (fun arrays =>
      match arrays.get? branchnames.length with
      | some v => .ok v
      | none => .error .indexError)
  else
    let b := (cfg.aliases.lookup req).getD req
    match idxOfStr b branchnames with
    | none => .error .valueError
    | some i =>
      .ok (fun arrays =>
        match arrays.get? i with
        | some v => .ok v
        | none => .error .indexError)

/-- `ChainSource._iterate` (lines 291-305): stream chunks of the
requested columns from the external tree (modelled from the spec as
`cfg.chunks`), appending a freshly generated `numpy.arange(entrystart,
entrystop)` when the entry index was requested. -/
def srcIterate {V : Type} (A : Arith V) (cfg : SourceCfg V)
    (branchnames : List String) (hasEV : Bool) : List (List V) :=
  cfg.chunks.map fun ch =>
    let arrays := branchnames.map ch.col
    if hasEV then arrays ++ [A.arange ch.lo ch.hi] else arrays

/-- Expression inputs accepted by `_tofcn`: source text (with its parse)
or an existing callable (with its declared parameters, its other local
variables, and its behaviour). -/
inductive ExprIn (V : Type) where
  | text (src : String) (body : List Stmt)
  | func (fname : Option String) (params : List String) (extraLocals : List String)
      (run : List V → Except PyErr (Option V))

/-- The shapes `_tofcns` accepts: a single expression, a dict of
name-to-expression, or an iterable of expressions. -/
inductive ExprsArg (V : Type) where
  | single (e : ExprIn V)
  | dict (m : List (String × ExprIn V))
  | coll (es : List (ExprIn V))

/-- One normalized output of `_tofcns`: the compiled function, its
requirement list, and its display name.  The cache id is dropped (no
claim depends on it).  NOTE the requirement list is
`expr.__code__.co_varnames` (line 105), which holds the parameters AND
the other assigned locals. -/
structure TF (V : Type) where
  fcn : PyFcn V
  reqs : List String
  dictname : Option String

/-- Effectful map over `Except` (the monadic comprehension/`map` the
source uses), written by explicit recursion: the first failure aborts. -/
def mapME {α β : Type} (f : α → Except PyErr β) : List α → Except PyErr (List β)
  | [] => .ok []
  | a :: t => do
    let b ← f a
    let bs ← mapME f t
    .ok (b :: bs)

/-- `ChainStep._tofcn` (lines 102-105) for one expression, on a
receiver that owns `_compilefcn` (the `ChainSource`): text goes through
`string2fcn`; requirements are `co_varnames`. -/
def tofcn {V : Type} (A : Arith V) (g : String → Option V) (e : ExprIn V) :
    Except PyErr (PyFcn V) :=
  match e with
  | .text _ body => string2fcn A g body
  | .func _ ps ls run =>
    .ok { varnames := ps ++ ls, arity := ps.length, run := run }

/-- `ChainStep._tofcns` (lines 107-123): normalize the accepted input
shapes to a list of `TF`, with the display name being the text itself,
the dict key, or the callable's name. -/
def tofcns {V : Type} (A : Arith V) (g : String → Option V) :
    ExprsArg V → Except PyErr (List (TF V))
  | .single (.text s body) => do
    let f ← string2fcn A g body
    .ok [⟨f, f.varnames, some s⟩]
  | .single (.func nm ps ls run) => do
    let f ← tofcn A g (.func nm ps ls run)
    .ok [⟨f, f.varnames, nm⟩]
  | .dict m =>
    mapME (fun p => do
      let f ← tofcn A g p.2
      .ok (⟨f, f.varnames, some p.1⟩ : TF V)) m
  | .coll es =>
    mapME (fun e => do
      let f ← tofcn A g e
      .ok (⟨f, f.varnames, match e with
            | .text s _ => some s
            | .func nm _ _ _ => nm⟩ : TF V)) es

/-- Python keywords (plus the constants `True`/`False`/`None` which parse
as constants rather than `ast.Name`). -/
def pyKeywords : List String :=
  ["False", "None", "True", "and", "as", "assert", "break", "class",
   "continue", "def", "del", "elif", "else", "except", "finally", "for",
   "from", "global", "if", "import", "in", "is", "lambda", "nonlocal",
   "not", "or", "pass", "raise", "return", "try", "while", "with", "yield"]

/-- `ChainStep._isidentifier` (lines 154-161): the string parses as a
single bare-`Name` expression statement.  Modelled structurally: a
nonempty identifier-shaped token that is not a keyword or constant. -/
def isident (s : String) : Bool :=
  match s.data with
  | [] => false
  | c :: cs =>
    (c.isAlpha || c = '_') && cs.all (fun d => d.isAlphanum || d = '_')
      && ¬ pyKeywords.contains s

/-- Does an (optional) display name pass `_isidentifier`?  A `None`
name makes `ast.parse` raise `TypeError`, which `_isidentifier`
catches, returning `False`. -/
def identOpt : Option String → Bool
  | some s => isident s
  | none => false

/-- Do all display names pass the namedtuple field validation? -/
def namesOk {V : Type} (fcns : List (TF V)) : Bool :=
  fcns.all fun tf => identOpt tf.dictname

/-- The requested output container kinds (`outputtype`): `dict`,
`tuple`, `list`, `namedtuple`, or any other constructor called with the
results positionally. -/
inductive OutKind where
  | dict
  | tup
  | lst
  | ntuple
  | custom
  deriving DecidableEq, Repr

/-- One record yielded by `iterate`: a mapping keyed by display names, a
positional container, or a namedtuple with validated field names.
A `none` value is Python `None` (an output never computed, or one whose
evaluator returned `None`). -/
inductive Record (V : Type) where
  | mapping (fields : List (Option String × Option V))
  | positional (vals : List (Option V))
  | named (fields : List (String × Option V))
  deriving DecidableEq, Repr

/-- The observable behaviour of the `iterate` generator: the records it
yielded, terminated either by normal exhaustion or by an exception. -/
inductive Trace (V : Type) where
  | done (recs : List (Record V))
  | errored (recs : List (Record V)) (e : PyErr)
  deriving DecidableEq, Repr

/-- The records a trace yielded (whether or not it then raised). -/
def Trace.records {V : Type} : Trace V → List (Record V)
  | .done rs => rs
  | .errored rs _ => rs

/-- The `finish` closure of `iterate` (lines 175-183): dict output zips
display names with results; `tuple`/`list` are positional; a validated
namedtuple carries the field names; any other constructor is called
positionally. -/
def finishRec {V : Type} (k : OutKind) (dictnames : List (Option String))
    (results : List (Option V)) : Record V :=
  match k with
  | .dict => .mapping (dictnames.zip results)
  | .tup => .positional results
  | .lst => .positional results
  | .ntuple => .named ((dictnames.map (fun o => o.getD "")).zip results)
  | .custom => .positional results

/-- The `_satisfy` sweep of `ChainStep._compilefcns` (lines 131-136),
with the `ChainSource` as the receiver's chain. -/
def satisfyAll {V : Type} (cfg : SourceCfg V) (fcns : List (TF V)) : Accum :=
  fcns.foldl (fun acc tf => tf.reqs.foldl (fun a r => srcSatisfy cfg r a) acc)
    ⟨[], false⟩

/-- The per-output compilation of `ChainStep._compilefcns` (lines
138-151): build one arg-fetcher per requirement and compose them into
`cfcn(arrays) = fcn(arg0(arrays), arg1(arrays), ...)`.  The numba
wrapper is modelled as the identity. -/
def compileOne {V : Type} (cfg : SourceCfg V) (branchnames : List String)
    (tf : TF V) : Except PyErr (List V → Except PyErr (Option V)) := do
  let argfcns ← mapME (fun r => srcArgfcn cfg r branchnames) tf.reqs
  .ok fun arrays => do
    let args ← mapME (fun f => f arrays) argfcns
    tf.fcn.call args

/-- Compile every output (`_compilefcns`, given the accumulated columns). -/
def compileAll {V : Type} (cfg : SourceCfg V) (branchnames : List String)
    (fcns : List (TF V)) : Except PyErr (List (List V → Except PyErr (Option V))) :=
  mapME (compileOne cfg branchnames) fcns

/-- The sequential (`calcexecutor is None`) evaluation of one chunk:
each output is computed in declaration order and its captured exception
is immediately re-raised through `uproot.tree._delayedraise` (modelled
from the spec: re-raise the captured exception info, pass on `None`),
so the first failure propagates and aborts the generator. -/
def calcSeq {V : Type} (compiled : List (List V → Except PyErr (Option V)))
    (arrays : List V) : Except PyErr (List (Option V)) :=
  mapME (fun c => c arrays) compiled

/-- The executor (`calcexecutor.map(calculate, range(...))`) evaluation
of one chunk: per-output outcomes are captured; successes fill
`results`, failures leave `None` there and store the exception info. -/
def calcExec {V : Type} (compiled : List (List V → Except PyErr (Option V)))
    (arrays : List V) : List (Option V) × List (Option PyErr) :=
  (compiled.map fun c =>
      match c arrays with
      | .ok v => v
      | .error _ => none,
   compiled.map fun c =>
      match c arrays with
      | .ok _ => none
      | .error e => some e)

/-- The deferred-raise loop `for excinfo in excinfos: _delayedraise(excinfo)`
(lines 190-191 and 214-215).  The bare name `_delayedraise` is NOT bound
in the module (only `uproot.tree._delayedraise` exists), so the first
loop iteration — taken whenever `excinfos` is nonempty, even if every
entry is `None` — raises `NameError`. -/
def drainExcs : List (Option PyErr) → Except PyErr Unit
  | [] => .ok ()
  | _ :: _ => .error .nameError

/-- The chunk loop of `ChainStep.iterate` (lines 187-216).  The state
`st` is `excinfos`/`results` from the previous chunk (`none` before the
first chunk).  At the start of each iteration the previous chunk's
exceptions are drained and its record yielded; then the current chunk is
computed, sequentially or through the executor.  After the last chunk
the same drain-and-yield runs once more. -/
def iterLoop {V : Type} (fin : List (Option V) → Record V)
    (compiled : List (List V → Except PyErr (Option V))) (cexec : Bool) :
    List (List V) → Option (List (Option PyErr) × List (Option V)) →
    List (Record V) → Trace V
  | [], none, acc => .done acc.reverse
  | [], some (excs, results), acc =>
    (match drainExcs excs with
     | .error e => .errored acc.reverse e
     | .ok _ => .done (acc.reverse ++ [fin results]))
  | arrays :: rest, none, acc =>
    if cexec then
      let (results, excs) := calcExec compiled arrays
      iterLoop fin compiled cexec rest (some (excs, results)) acc
    else
      match calcSeq compiled arrays with
      | .error e => .errored acc.reverse e
      | .ok results => iterLoop fin compiled cexec rest (some ([], results)) acc
  | arrays :: rest, some (excs, results), acc =>
    (match drainExcs excs with
     | .error e => .errored acc.reverse e
     | .ok _ =>
       if cexec then
         let (results', excs') := calcExec compiled arrays
         iterLoop fin compiled cexec rest (some (excs', results')) (fin results :: acc)
       else
         match calcSeq compiled arrays with
         | .error e => .errored (fin results :: acc).reverse e
         | .ok results' =>
           iterLoop fin compiled cexec rest (some ([], results')) (fin results :: acc))

/-- `ChainStep.iterate` (lines 163-216) called on the `ChainSource` —
the only receiver reachable through the module's public API
(`TTreeMethods_numba.iterate` always constructs a fresh `ChainSource`).
Normalize the expressions, validate namedtuple field names, resolve and
compile every output, then stream and evaluate chunk by chunk.  The
result is the generator's observable trace: errors raised before the
loop surface on the first `next()` with no record yielded. -/
def iterate {V : Type} (A : Arith V) (g : String → Option V) (cfg : SourceCfg V)
    (exprs : ExprsArg V) (okind : OutKind) (cexec : Bool) : Trace V :=
  match tofcns A g exprs with
  | .error e => .errored [] e
  | .ok fcns =>
    let dictnames := fcns.map (·.dictname)
    if okind = OutKind.ntuple ∧ ¬ namesOk fcns then .errored [] .valueError
    else
      let acc := satisfyAll cfg fcns
      match compileAll cfg acc.branchnames fcns with
      | .error e => .errored [] e
      | .ok compiled =>
        iterLoop (finishRec okind dictnames) compiled cexec
          (srcIterate A cfg acc.branchnames acc.entry) none []

/-- A chain: a `ChainSource` terminal, optionally extended by `Define`
steps, each owning a mapping from defined name to its compiled function
and requirement list (`self.fcn` / `self.requirements`). -/
inductive Chain (V : Type) where
  | src (cfg : SourceCfg V)
  | defstep (prev : Chain V) (defs : List (String × PyFcn V × List String))

/-- The chain's terminal source configuration (the `source` property). -/
def Chain.cfg {V : Type} : Chain V → SourceCfg V
  | .src c => c
  | .defstep prev _ => prev.cfg

/-- `_satisfy` walked along the chain: `Define._satisfy` (lines 239-244)
expands a name it defines into that expression's own requirements,
resolved through the previous step; any other name is delegated
unchanged; the terminal is `ChainSource._satisfy`. -/
def chainSatisfy {V : Type} : Chain V → String → Accum → Accum
  | .src cfg, req, acc => srcSatisfy cfg req acc
  | .defstep prev defs, req, acc =>
    match defs.lookup req with
    | some (_, reqs) => reqs.foldl (fun a r => chainSatisfy prev r a) acc
    | none => chainSatisfy prev req acc

/-- `Define._argfcn` (lines 246-261).  For a requirement the step itself
defines, the body's first real statement builds the env dict from the
bare name `fcn` (line
250), and the bare names `fcn` (and later `dictname`) are unbound in
that scope — the method raises `NameError` before composing anything.
Other requirements are delegated to the previous step. -/
def chainArgfcn {V : Type} : Chain V → String → List String →
    Except PyErr (List V → Except PyErr V)
  | .src cfg, req, bns => srcArgfcn cfg req bns
  | .defstep prev defs, req, bns =>
    match defs.lookup req with
    | some _ => .error .nameError
    | none => chainArgfcn prev req bns

/-- `_tofcn` invoked with a `Define` step as `self` (from `Define.__init__`
line 235 via `_tofcns`): a text expression is first parsed and compiled
by `string2fcn` (whose errors propagate), and then `self._compilefcn`
is read — but neither `ChainStep` nor `Define` defines `_compilefcn`
(only `ChainSource.__init__` sets it on its own instance), so the
attribute lookup raises `AttributeError`. -/
def defineTofcn {V : Type} (A : Arith V) (g : String → Option V) :
    ExprIn V → Except PyErr Unit
  | .text _ body => do
    let _ ← string2fcn A g body
    .error .attributeError
  | .func _ _ _ _ => .error .attributeError

/-- `Define.__init__` (lines 222-237): validate that every key is an
identifier string and not a keyword (`TypeError` otherwise), then
normalize the expressions via `_tofcns` — which, for any nonempty
mapping, fails with `AttributeError` on the first item because `self`
(the new `Define`) has no `_compilefcn` attribute. -/
def defineInit {V : Type} (A : Arith V) (g : String → Option V) (prev : Chain V)
    (exprs : List (String × ExprIn V)) : Except PyErr (Chain V) :=
  if exprs.any (fun p => ¬ isident p.1 || pyKeywords.contains p.1) then
    .error .typeError
  else
    match exprs with
    | [] => .ok (.defstep prev [])
    | (_, e) :: _ =>
      match defineTofcn A g e with
      | .error er => .error er
      | .ok _ => .error .attributeError

/-- Modelled from the spec: the deferred-error iteration contract.  Given
the per-chunk evaluation outcomes in chunk order, the generator yields
one record per successful chunk and, at the first failing chunk, raises
that chunk's original exception instead of yielding its record; no later
chunk is produced.  (The raise reaches the consumer on the `next()` call
that would have returned the failing chunk's record — one chunk behind
the computation, or at exhaustion when the final chunk failed.) -/
def specDeferGo {V : Type} (fin : List (Option V) → Record V)
    (acc : List (Record V)) : List (Except PyErr (List (Option V))) → Trace V
  | [] => .done acc.reverse
  | .ok rs :: rest => specDeferGo fin (fin rs :: acc) rest
  | .error e :: _ => .errored acc.reverse e

/-- Modelled from the spec: the full deferred-error trace. -/
def specDeferredTrace {V : Type} (fin : List (Option V) → Record V)
    (outs : List (Except PyErr (List (Option V)))) : Trace V :=
  specDeferGo fin [] outs

/-- Plain integer arithmetic for concrete scalar runs of the expression
compiler. -/
def intArith : Arith Int :=
  { lit := id, add := (· + ·), sub := (· - ·), mul := (· * ·),
    arange := fun a b => Int.ofNat (b - a) }

/-- Integer-array values for concrete pipeline runs: a column is digits
per entry; operations act elementwise and `arange` builds the synthetic
entry-index array. -/
def arrArith : Arith (List Int) :=
  { lit := fun n => [n]
  , add := fun a b => a.zipWith (· + ·) b
  , sub := fun a b => a.zipWith (· - ·) b
  , mul := fun a b => a.zipWith (· * ·) b
  , arange := fun a b => (List.range' a (b - a)).map Int.ofNat }

/-- An empty globals environment (`math.__dict__` restricted to the
names no claim touches). -/
def noGlobals {V : Type} : String → Option V := fun _ => none

/-- The parse of the text `"x = 2\nx + 1"`. -/
def bodyAssignX : List Stmt :=
  [Stmt.assign "x" (PExpr.num 2),
   Stmt.expr (PExpr.binop BOp.add (PExpr.name "x") (PExpr.num 1))]

/-- The parse of the text `"x * 2"`. -/
def bodyXTimes2 : List Stmt :=
  [Stmt.expr (PExpr.binop BOp.mul (PExpr.name "x") (PExpr.num 2))]

/-- A stored evaluator for a `Define` entry `y` with requirement `x`, as
`self.fcn["y"]` would hold it had construction succeeded. -/
def fcnY : PyFcn Int := ⟨["x"], 1, fun args => Except.ok (args.get? 0)⟩

/-- A `Define` step over a bare source, with `self.requirements` mapping
`"y"` to `("x",)` — the state `Define.__init__` is meant to build. -/
def chainY : Chain Int :=
  Chain.defstep (Chain.src ⟨[], none, []⟩) [("y", fcnY, ["x"])]

/-- C1: the claim states that a requirement resolved by `_satisfy` is
satisfiable by `_argfcn` with the same accumulated columns, the `Define`
case composing the stored per-requirement fetchers into a call of the
stored evaluator.  The code refutes this: `Define._satisfy("y")`
accumulates exactly `["x"]`, but `Define._argfcn("y", ["x"])` raises
`NameError` — its body reads the bare names `fcn` and `dictname`, which
are unbound in that method (lines 250 and 258). -/
theorem define_argfcn_nameError :
    chainSatisfy chainY "y" ⟨[], false⟩ = ⟨["x"], false⟩ ∧
    chainArgfcn chainY "y" ["x"] = Except.error PyErr.nameError := by
  constructor <;> rfl

/-- C3: the claim states the requirement list of an expression holds
exactly its free inputs, every assignment target excluded.  The code
takes requirements from `__code__.co_varnames` (line 105), which lists
parameters AND assigned locals: for the text `"x = 2\nx + 1"` the free
input set is empty, yet the derived requirement list is `["x"]`. -/
theorem tofcn_reqs_include_locals :
    (tofcns intArith noGlobals (ExprsArg.single (ExprIn.text "x = 2\nx + 1" bodyAssignX))).map
        (fun l => l.map TF.reqs) = Except.ok [["x"]] ∧
    (collectL ⟨[], []⟩ bodyAssignX).ins = [] := by
  constructor <;> rfl

/-- C4: the claim states a `Define` step registering `y` as `"x * 2"`
makes `y` resolvable.  The code refutes this at construction:
`Define.__init__` normalizes its expressions through `self._tofcns`,
which reads `self._compilefcn` — an attribute set only by
`ChainSource.__init__` on its own instance, never on a `Define` — so
registering any nonempty mapping raises `AttributeError`. -/
theorem define_init_attributeError :
    defineInit arrArith noGlobals (Chain.src ⟨[], none, []⟩)
        [("y", ExprIn.text "x * 2" bodyXTimes2)]
      = Except.error PyErr.attributeError := by
  rfl

/-- C8: `string2fcn` fails (with `TypeError`, from the parse/definition
checks) exactly on the degenerate bodies — an empty parse or one
containing a function definition — and succeeds on every other parsed
body. -/
theorem string2fcn_failure_characterization {V : Type} (A : Arith V)
    (g : String → Option V) (body : List Stmt) :
    ((∃ f, string2fcn A g body = Except.ok f) ↔
      (body ≠ [] ∧ body.any isFuncDef = false)) ∧
    (∀ er, string2fcn A g body = Except.error er → er = PyErr.typeError) := by
  unfold string2fcn
  cases h : body.any isFuncDef with
  | true => simp [h]
  | false => cases body with
    | nil => simp
    | cons a l => simp

/-- Witness for C8 at the degenerate inputs: the empty parse yields no
function, and a lone function definition yields no function. -/
theorem string2fcn_failure_witness :
    (¬ ∃ f, string2fcn intArith (noGlobals (V := Int)) [] = Except.ok f) ∧
    (¬ ∃ f, string2fcn intArith (noGlobals (V := Int)) [Stmt.funcdefn "f"] = Except.ok f) := by
  constructor
  · intro h
    have h2 := (string2fcn_failure_characterization intArith noGlobals []).1.mp h
    simp at h2
  · intro h
    have h2 := (string2fcn_failure_characterization intArith noGlobals [Stmt.funcdefn "f"]).1.mp h
    simp [isFuncDef] at h2

/-- The names an expression reads (its `ast.Name`/Load nodes). -/
def loadsE : PExpr → List String
  | .name n => [n]
  | .num _ => []
  | .binop _ l r => loadsE l ++ loadsE r

/-- The names a statement reads. -/
def loadsS : Stmt → List String
  | .expr e => loadsE e
  | .assign _ v => loadsE v
  | .funcdefn _ => []
  | .ret e => loadsE e

/-- The names a statement sequence reads. -/
def loadsL : List Stmt → List String
  | [] => []
  | s :: rest => loadsS s ++ loadsL rest

/-- A statement sequence free of `return` statements — an invariant of
every top-level parse (`return` outside a function is a syntax error). -/
def retFree (l : List Stmt) : Prop :=
  ∀ e, Stmt.ret e ∉ l

theorem mem_addName {x y : String} {l : List String} :
    x ∈ addName y l ↔ x = y ∨ x ∈ l := by
  unfold addName
  split
  · constructor
    · exact fun h => Or.inr h
    · rintro (rfl | h)
      · assumption
      · exact h
  · simp [or_comm]

theorem mem_insertStr {x y : String} {l : List String} :
    x ∈ insertStr y l ↔ x = y ∨ x ∈ l := by
  induction l with
  | nil => simp [insertStr]
  | cons a l ih =>
    unfold insertStr
    split
    · rw [List.mem_cons, ih, List.mem_cons]
      tauto
    · rw [List.mem_cons]

theorem mem_sortStrs {x : String} {l : List String} :
    x ∈ sortStrs l ↔ x ∈ l := by
  induction l with
  | nil => simp [sortStrs]
  | cons a l ih =>
    unfold sortStrs at *
    simp [List.foldr_cons, mem_insertStr, ih]

theorem collectE_outs (s : Syms) (e : PExpr) : (collectE s e).outs = s.outs := by
  induction e generalizing s with
  | name id => unfold collectE; split <;> rfl
  | num n => rfl
  | binop op l r ihl ihr => unfold collectE; rw [ihr, ihl]

theorem collectE_ins_mono {x : String} (s : Syms) (e : PExpr)
    (h : x ∈ s.ins) : x ∈ (collectE s e).ins := by
  induction e generalizing s with
  | name id =>
    unfold collectE
    split
    · exact h
    · exact mem_addName.mpr (Or.inr h)
  | num n => exact h
  | binop op l r ihl ihr => exact ihr _ (ihl _ h)

theorem collectS_outs_mono {x : String} (s : Syms) (st : Stmt)
    (h : x ∈ s.outs) : x ∈ (collectS s st).outs := by
  cases st with
  | expr e => rw [collectS, collectE_outs]; exact h
  | assign t v =>
    rw [collectS, collectE_outs]
    exact mem_addName.mpr (Or.inr h)
  | funcdefn f => exact h
  | ret e => rw [collectS, collectE_outs]; exact h

theorem collectS_ins_mono {x : String} (s : Syms) (st : Stmt)
    (h : x ∈ s.ins) : x ∈ (collectS s st).ins := by
  cases st with
  | expr e => exact collectE_ins_mono _ _ h
  | assign t v => exact collectE_ins_mono _ _ h
  | funcdefn f => exact h
  | ret e => exact collectE_ins_mono _ _ h

theorem collectL_outs_mono {x : String} (s : Syms) (l : List Stmt)
    (h : x ∈ s.outs) : x ∈ (collectL s l).outs := by
  induction l generalizing s with
  | nil => exact h
  | cons a l ih => exact ih _ (collectS_outs_mono _ _ h)

theorem collectL_ins_mono {x : String} (s : Syms) (l : List Stmt)
    (h : x ∈ s.ins) : x ∈ (collectL s l).ins := by
  induction l generalizing s with
  | nil => exact h
  | cons a l ih => exact ih _ (collectS_ins_mono _ _ h)

/-- Coverage at expression level: every name an expression reads ends up
in the collector's `insymbols` or was already stored. -/
theorem loadsE_covered {x : String} (s : Syms) (e : PExpr)
    (h : x ∈ loadsE e) : x ∈ (collectE s e).ins ∨ x ∈ s.outs := by
  induction e generalizing s with
  | name id =>
    simp [loadsE] at h
    subst h
    unfold collectE
    split
    · right; assumption
    · left; exact mem_addName.mpr (Or.inl rfl)
  | num n => simp [loadsE] at h
  | binop op l r ihl ihr =>
    simp only [loadsE, List.mem_append] at h
    rcases h with h | h
    · rcases ihl (s := s) h with h2 | h2
      · exact Or.inl (collectE_ins_mono (collectE s l) r h2)
      · exact Or.inr h2
    · rcases ihr (s := collectE s l) h with h2 | h2
      · exact Or.inl h2
      · rw [collectE_outs] at h2
        exact Or.inr h2

/-- Coverage at statement level. -/
theorem loadsS_covered {x : String} (s : Syms) (st : Stmt)
    (h : x ∈ loadsS st) : x ∈ (collectS s st).ins ∨ x ∈ (collectS s st).outs := by
  cases st with
  | expr e =>
    rcases loadsE_covered s e h with h2 | h2
    · exact Or.inl h2
    · rw [collectS, collectE_outs]
      exact Or.inr h2
  | assign t v =>
    rcases loadsE_covered { s with outs := addName t s.outs } v h with h2 | h2
    · exact Or.inl h2
    · rw [collectS, collectE_outs]
      exact Or.inr h2
  | funcdefn f => simp [loadsS] at h
  | ret e =>
    rcases loadsE_covered s e h with h2 | h2
    · exact Or.inl h2
    · rw [collectS, collectE_outs]
      exact Or.inr h2

/-- Coverage over a whole body: every name the body reads is among the
collected free names or the collected assigned names. -/
theorem loadsL_covered {x : String} (s : Syms) (l : List Stmt)
    (h : x ∈ loadsL l) : x ∈ (collectL s l).ins ∨ x ∈ (collectL s l).outs := by
  induction l generalizing s with
  | nil => simp [loadsL] at h
  | cons a l ih =>
    simp only [loadsL, List.mem_append] at h
    rcases h with h | h
    · rcases loadsS_covered s a h with h2 | h2
      · exact Or.inl (collectL_ins_mono (collectS s a) l h2)
      · exact Or.inr (collectL_outs_mono (collectS s a) l h2)
    · exact ih _ h

theorem loadsL_append (a b : List Stmt) :
    loadsL (a ++ b) = loadsL a ++ loadsL b := by
  induction a with
  | nil => simp [loadsL]
  | cons s a ih => simp [loadsL, ih]

theorem evalE_congr {V : Type} (A : Arith V) (look1 look2 : String → Except PyErr V)
    (e : PExpr) (h : ∀ n ∈ loadsE e, look1 n = look2 n) :
    evalE A look1 e = evalE A look2 e := by
  induction e with
  | name n => exact h n (by simp [loadsE])
  | num k => rfl
  | binop op l r ihl ihr =>
    have h1 := ihl (fun n hn => h n (by simp [loadsE, hn]))
    have h2 := ihr (fun n hn => h n (by simp [loadsE, hn]))
    simp only [evalE, h1, h2]

theorem execB_congr {V : Type} (A : Arith V) (look1 look2 : Env V → String → Except PyErr V)
    (stmts : List Stmt) (env : Env V)
    (h : ∀ (env' : Env V) (n : String), n ∈ loadsL stmts → look1 env' n = look2 env' n) :
    execB A look1 env stmts = execB A look2 env stmts := by
  induction stmts generalizing env with
  | nil => rfl
  | cons s rest ih =>
    have hrest : ∀ (env' : Env V) (n : String), n ∈ loadsL rest → look1 env' n = look2 env' n :=
      fun env' n hn => h env' n (by simp [loadsL, hn])
    cases s with
    | expr e =>
      have he : evalE A (look1 env) e = evalE A (look2 env) e :=
        evalE_congr A _ _ e (fun n hn => h env n (by simp [loadsL, loadsS, hn]))
      simp only [execB, he]
      cases evalE A (look2 env) e with
      | error er => rfl
      | ok v => exact ih env hrest
    | assign t v =>
      have he : evalE A (look1 env) v = evalE A (look2 env) v :=
        evalE_congr A _ _ v (fun n hn => h env n (by simp [loadsL, loadsS, hn]))
      simp only [execB, he]
      cases evalE A (look2 env) v with
      | error er => rfl
      | ok x => exact ih _ hrest
    | funcdefn f => exact ih env hrest
    | ret e =>
      have he : evalE A (look1 env) e = evalE A (look2 env) e :=
        evalE_congr A _ _ e (fun n hn => h env n (by simp [loadsL, loadsS, hn]))
      simp only [execB, he]

/-- Executing the rewritten body splits into executing the original
prefix and evaluating the returned expression. -/
theorem execB_append_ret {V : Type} (A : Arith V)
    (look : Env V → String → Except PyErr V) (e : PExpr) (init : List Stmt)
    (env : Env V) (hr : ∀ e', Stmt.ret e' ∉ init) :
    execB A look env (init ++ [Stmt.ret e]) =
      match execB A look env init with
      | .error er => .error er
      | .ok (env', _) => (evalE A (look env') e).map (fun x => (env', some x)) := by
  induction init generalizing env with
  | nil =>
    simp only [List.nil_append, execB]
    cases evalE A (look env) e with
    | error er => rfl
    | ok x => rfl
  | cons s rest ih =>
    have hr' : ∀ e', Stmt.ret e' ∉ rest := fun e' hmem => hr e' (List.mem_cons_of_mem _ hmem)
    cases s with
    | expr e2 =>
      simp only [List.cons_append, execB]
      cases evalE A (look env) e2 with
      | error er => rfl
      | ok v => exact ih env hr'
    | assign t v =>
      simp only [List.cons_append, execB]
      cases evalE A (look env) v with
      | error er => rfl
      | ok x => exact ih _ hr'
    | funcdefn f =>
      simp only [List.cons_append, execB]
      exact ih env hr'
    | ret e2 => exact absurd (List.mem_cons_self _ _) (hr e2)

theorem zip_map_self {α β : Type} (σ : α → β) (l : List α) :
    l.zip (l.map σ) = l.map (fun n => (n, σ n)) := by
  induction l with
  | nil => rfl
  | cons a l ih => simp [ih]

theorem rewriteLast_append_expr (init : List Stmt) (e : PExpr) :
    rewriteLast (init ++ [Stmt.expr e]) = init ++ [Stmt.ret e] := by
  induction init with
  | nil => rfl
  | cons a rest ih =>
    cases rest with
    | nil => cases a <;> rfl
    | cons b t => simpa [rewriteLast] using ih

/-- C5: for every text whose final statement is a bare expression
(statements before it acting as ordinary assignments), with no function
definitions and hence a successful parse, `string2fcn` produces a
function whose parameters are exactly the text's free names in sorted
order, and calling it with the correct bindings for those free names
yields the same outcome as evaluating the text directly under those
bindings.  `retFree init` is the invariant that a top-level parse
contains no `return` statement. -/
theorem string2fcn_matches_direct {V : Type} (A : Arith V) (g : String → Option V)
    (σ : String → V) (init : List Stmt) (e : PExpr)
    (hf : (init ++ [Stmt.expr e]).any isFuncDef = false)
    (hr : retFree init) :
    ∃ f, string2fcn A g (init ++ [Stmt.expr e]) = Except.ok f ∧
      f.varnames.take f.arity = freeNames (init ++ [Stmt.expr e]) ∧
      f.call ((freeNames (init ++ [Stmt.expr e])).map σ) = (directEval A σ init e).map some := by
  have hne : (init ++ [Stmt.expr e]).isEmpty = false := by
    cases init <;> rfl
  unfold string2fcn
  rw [hf, hne]
  simp only [Bool.false_eq_true, if_false]
  refine ⟨_, rfl, ?_, ?_⟩
  · -- the parameters are the sorted free names
    simp only [freeNames]
    exact
      List.take_left (sortStrs (collectL ⟨[], []⟩ (init ++ [Stmt.expr e])).ins)
        ((collectL ⟨[], []⟩ (init ++ [Stmt.expr e])).outs.filter
          (fun n => ¬ (sortStrs (collectL ⟨[], []⟩ (init ++ [Stmt.expr e])).ins).contains n))
  · -- the call agrees with direct evaluation
    set body := init ++ [Stmt.expr e] with hbody
    set syms := collectL ⟨[], []⟩ body with hsyms
    set P := sortStrs syms.ins with hP
    set locset := P ++ syms.outs with hlocset
    have hlen : ((freeNames body).map σ).length = P.length := by
      simp [freeNames, hP, hsyms]
    rw [PyFcn.call]
    simp only [hlen, if_pos rfl]
    have henv : P.zip ((freeNames body).map σ) = P.map (fun n => (n, σ n)) := by
      have : freeNames body = P := by rw [hP, hsyms]; rfl
      rw [this, zip_map_self]
    rw [henv]
    have hrw : rewriteLast body = init ++ [Stmt.ret e] := rewriteLast_append_expr init e
    rw [hrw]
    -- switch from function-local name resolution to plain resolution
    have hcover : ∀ (env' : Env V) (n : String), n ∈ loadsL (init ++ [Stmt.ret e]) →
        lookupLocal locset g env' n = lookupPlain env' n := by
      intro env' n hn
      have hn2 : n ∈ loadsL body := by
        rw [hbody]
        rw [loadsL_append] at hn ⊢
        simpa [loadsL, loadsS] using hn
      have hmem : n ∈ locset := by
        rcases loadsL_covered ⟨[], []⟩ body hn2 with h2 | h2
        · exact List.mem_append.mpr (Or.inl (mem_sortStrs.mpr h2))
        · exact List.mem_append.mpr (Or.inr h2)
      rw [lookupLocal, if_pos hmem, lookupPlain]
    rw [execB_congr A _ lookupPlain _ _ hcover]
    rw [execB_append_ret A lookupPlain e init _ (fun e' hmem => hr e' hmem)]
    -- both sides now run the prefix and evaluate the final expression
    rw [directEval]
    have henv0 : ((freeNames body).map (fun n => (n, σ n)) : Env V)
        = P.map (fun n => (n, σ n)) := by
      rw [hP, hsyms]; rfl
    rw [hbody] at henv0
    rw [henv0]
    cases hinit : execB A lookupPlain (P.map (fun n => (n, σ n))) init with
    | error er => simp [Except.map, bind, Except.bind]
    | ok p =>
      rcases p with ⟨env', r⟩
      cases hev : evalE A (lookupPlain env') e with
      | error er => simp [Except.map, bind, Except.bind, hev]
      | ok x => simp [Except.map, bind, Except.bind, hev]

/-- Witness for C5 at the text `"x = 2\nx + 1"`: the assignment binds
`x` locally, so the function takes no parameters, and it returns `3`. -/
theorem string2fcn_matches_direct_witness :
    ∃ f, string2fcn intArith noGlobals bodyAssignX = Except.ok f ∧
      f.varnames.take f.arity = [] ∧
      f.call [] = Except.ok (some 3) := by
  obtain ⟨f, h1, h2, h3⟩ :=
    string2fcn_matches_direct intArith noGlobals (fun _ => (0 : Int))
      [Stmt.assign "x" (PExpr.num 2)]
      (PExpr.binop BOp.add (PExpr.name "x") (PExpr.num 1))
      (by rfl)
      (by intro e' h; simp at h)
  exact ⟨f, h1, h2, h3⟩

/-- C6: resolving the reserved entry-index name appends no raw column —
it only sets the entry flag; its fetcher reads the chunk position just
past the last real column (`branchnames.length`); and an iterate call
requesting that name over a chunk covering entries [100, 150) yields the
freshly generated sequence 100..149, appended to the chunk. -/
theorem entryindex_pipeline (v : String) (content : String → List Int) :
    srcSatisfy (V := List Int) ⟨[], some v, [⟨100, 150, content⟩]⟩ v ⟨[], false⟩ = ⟨[], true⟩ ∧
    (∀ (bn : List String) (arrays : List (List Int)),
      (srcArgfcn (V := List Int) ⟨[], some v, [⟨100, 150, content⟩]⟩ v bn).map
          (fun fetch => fetch arrays)
        = Except.ok (match arrays.get? bn.length with
            | some a => Except.ok a
            | none => Except.error PyErr.indexError)) ∧
    iterate arrArith noGlobals ⟨[], some "i", [⟨100, 150, content⟩]⟩
        (ExprsArg.single (ExprIn.text "i" [Stmt.expr (PExpr.name "i")])) OutKind.dict false
      = Trace.done [Record.mapping [(some "i", some ((List.range' 100 50).map Int.ofNat))]] := by
  refine ⟨?_, ?_, ?_⟩
  · simp [srcSatisfy]
  · intro bn arrays
    unfold srcArgfcn
    split
    · simp only [Except.map]
      cases arrays.get? bn.length <;> rfl
    · next h => exact absurd rfl h
  · rfl

/-- Witness for C6 at the entry-index name `"i"` over an empty column
table: no raw column is fetched and the record is 100..149. -/
theorem entryindex_pipeline_witness :
    srcSatisfy (V := List Int) ⟨[], some "i", [⟨100, 150, fun _ => []⟩]⟩ "i" ⟨[], false⟩
      = ⟨[], true⟩ ∧
    iterate arrArith noGlobals ⟨[], some "i", [⟨100, 150, fun _ => []⟩]⟩
        (ExprsArg.single (ExprIn.text "i" [Stmt.expr (PExpr.name "i")])) OutKind.dict false
      = Trace.done [Record.mapping [(some "i", some ((List.range' 100 50).map Int.ofNat))]] := by
  have h := entryindex_pipeline "i" (fun _ => [])
  exact ⟨h.1, h.2.2⟩

theorem iterate_stages {V : Type} (A : Arith V) (g : String → Option V)
    (cfg : SourceCfg V) (exprs : ExprsArg V) (okind : OutKind) (cexec : Bool)
    (fcns : List (TF V)) (compiled : List (List V → Except PyErr (Option V)))
    (h1 : tofcns A g exprs = Except.ok fcns)
    (h2 : ¬ (okind = OutKind.ntuple ∧ ¬ namesOk fcns))
    (h3 : compileAll cfg (satisfyAll cfg fcns).branchnames fcns = Except.ok compiled) :
    iterate A g cfg exprs okind cexec =
      iterLoop (finishRec okind (fcns.map (·.dictname))) compiled cexec
        (srcIterate A cfg (satisfyAll cfg fcns).branchnames (satisfyAll cfg fcns).entry)
        none [] := by
  simp only [iterate, h1]
  rw [if_neg h2]
  simp only [h3]

theorem drainExcs_ne_nil {excs : List (Option PyErr)} (h : excs ≠ []) :
    drainExcs excs = Except.error PyErr.nameError := by
  cases excs with
  | nil => exact absurd rfl h
  | cons a l => rfl

/-- The sequential chunk loop realizes the deferred-error contract: one
record per successful chunk, the first failure raised in place of that
chunk's record, later chunks never produced. -/
theorem iterLoop_seq_spec {V : Type} (fin : List (Option V) → Record V)
    (compiled : List (List V → Except PyErr (Option V))) :
    ∀ (chunks : List (List V)) (acc : List (Record V)),
      (iterLoop fin compiled false chunks none acc
        = specDeferGo fin acc (chunks.map (calcSeq compiled))) ∧
      (∀ res, iterLoop fin compiled false chunks (some ([], res)) acc
        = specDeferGo fin (fin res :: acc) (chunks.map (calcSeq compiled))) := by
  intro chunks
  induction chunks with
  | nil =>
    intro acc
    constructor
    · rfl
    · intro res
      simp [iterLoop, specDeferGo, drainExcs]
  | cons a rest ih =>
    intro acc
    constructor
    · simp only [iterLoop, List.map_cons, specDeferGo, Bool.false_eq_true, if_false]
      cases h : calcSeq compiled a with
      | error e => simp [specDeferGo]
      | ok results => simpa [specDeferGo] using (ih acc).2 results
    · intro res
      simp only [iterLoop, drainExcs, List.map_cons, Bool.false_eq_true, if_false]
      cases h : calcSeq compiled a with
      | error e => simp [specDeferGo]
      | ok results => simpa [specDeferGo] using (ih (fin res :: acc)).2 results

/-- The executor chunk loop dies on its first deferred-raise sweep: with
at least one output, the `excinfos` iterable from `calcexecutor.map` is
nonempty, and applying the unbound name `_delayedraise` to its first
element raises `NameError` before any record is yielded. -/
theorem iterLoop_exec_nameError {V : Type} (fin : List (Option V) → Record V)
    (compiled : List (List V → Except PyErr (Option V))) (hc : compiled ≠ [])
    (a : List V) (rest : List (List V)) :
    iterLoop fin compiled true (a :: rest) none [] =
      Trace.errored [] PyErr.nameError := by
  have hexc : (calcExec compiled a).2 ≠ [] := by
    simp [calcExec, hc]
  cases rest with
  | nil => simp [iterLoop, drainExcs_ne_nil hexc]
  | cons b rest' => simp [iterLoop, drainExcs_ne_nil hexc]

theorem mapME_ok_length {α β : Type} (f : α → Except PyErr β) :
    ∀ (l : List α) (l' : List β), mapME f l = Except.ok l' → l'.length = l.length := by
  intro l
  induction l with
  | nil =>
    intro l' h
    simp [mapME] at h
    simp [← h]
  | cons a t ih =>
    intro l' h
    rw [mapME] at h
    cases hf : f a with
    | error e => simp [hf, bind, Except.bind] at h
    | ok b =>
      rw [hf] at h
      cases ht : mapME f t with
      | error e => simp [ht, bind, Except.bind] at h
      | ok bs =>
        rw [ht] at h
        simp [bind, Except.bind] at h
        simp [← h, ih bs ht]

/-- The outputs of `_tofcns` for a given call, when it succeeds. -/
def theFcns {V : Type} (A : Arith V) (g : String → Option V) (exprs : ExprsArg V) :
    List (TF V) :=
  getOkD (tofcns A g exprs) []

/-- The accumulator produced by resolving every output's requirements. -/
def theAccum {V : Type} (A : Arith V) (g : String → Option V) (cfg : SourceCfg V)
    (exprs : ExprsArg V) : Accum :=
  satisfyAll cfg (theFcns A g exprs)

/-- The compiled per-chunk evaluators, when compilation succeeds. -/
def theCompiled {V : Type} (A : Arith V) (g : String → Option V) (cfg : SourceCfg V)
    (exprs : ExprsArg V) : List (List V → Except PyErr (Option V)) :=
  getOkD (compileAll cfg (theAccum A g cfg exprs).branchnames (theFcns A g exprs)) []

/-- Shared lemma: a sequential (`calcexecutor=None`) iterate call whose
outputs normalize, validate, and compile produces exactly the
deferred-error spec trace of its per-chunk outcomes. -/
theorem iterate_seq_deferred_spec {V : Type} (A : Arith V) (g : String → Option V)
    (cfg : SourceCfg V) (exprs : ExprsArg V) (okind : OutKind)
    (h1 : isOkE (tofcns A g exprs) = true)
    (h2 : ¬ (okind = OutKind.ntuple ∧ ¬ namesOk (theFcns A g exprs)))
    (h3 : isOkE (compileAll cfg (theAccum A g cfg exprs).branchnames
            (theFcns A g exprs)) = true) :
    iterate A g cfg exprs okind false =
      specDeferredTrace (finishRec okind ((theFcns A g exprs).map (·.dictname)))
        ((srcIterate A cfg (theAccum A g cfg exprs).branchnames
            (theAccum A g cfg exprs).entry).map
          (calcSeq (theCompiled A g cfg exprs))) := by
  cases hfc : tofcns A g exprs with
  | error e => rw [hfc] at h1; simp [isOkE] at h1
  | ok fcns =>
    have hF : theFcns A g exprs = fcns := by simp [theFcns, hfc, getOkD]
    have hAcc : theAccum A g cfg exprs = satisfyAll cfg fcns := by
      rw [theAccum, hF]
    cases hcp : compileAll cfg (theAccum A g cfg exprs).branchnames (theFcns A g exprs) with
    | error e => rw [hcp] at h3; simp [isOkE] at h3
    | ok compiled =>
      have hC : theCompiled A g cfg exprs = compiled := by
        simp [theCompiled, hcp, getOkD]
      rw [hF] at h2
      rw [hAcc, hF] at hcp
      rw [hF, hAcc, hC]
      rw [iterate_stages A g cfg exprs okind false fcns compiled hfc h2 hcp]
      exact (iterLoop_seq_spec _ compiled
        (srcIterate A cfg (satisfyAll cfg fcns).branchnames (satisfyAll cfg fcns).entry) []).1

/-- A one-parameter output evaluator that fails exactly on the column
value `[5]` (chunk 2 of `cfgThree`) and is the identity elsewhere. -/
def failOn5 : List (List Int) → Except PyErr (Option (List Int)) :=
  fun args => if args.headD [] = [5] then Except.error PyErr.typeError
    else Except.ok (some (args.headD []))

/-- A source of three chunks whose column `x` is `[1]`, `[5]`, `[9]`. -/
def cfgThree : SourceCfg (List Int) :=
  ⟨[], none, [⟨0, 1, fun _ => [1]⟩, ⟨1, 2, fun _ => [5]⟩, ⟨2, 3, fun _ => [9]⟩]⟩

/-- The single output expression evaluating `failOn5` on column `x`. -/
def exprFail : ExprsArg (List Int) := .single (.func (some "f") ["x"] [] failOn5)

/-- C2 (amended): for every iterate call with `calcexecutor=None` whose
outputs normalize, validate, and compile, the generator's observable
trace follows the deferred-error contract: the records of the chunks
before the first evaluation failure are yielded in order, then the
failing chunk's original exception is raised — with its original type —
exactly once, in place of that chunk's record (at generator exhaustion
when the final chunk failed), and no later chunk is produced. -/
theorem iterate_sequential_defers {V : Type} (A : Arith V) (g : String → Option V)
    (cfg : SourceCfg V) (exprs : ExprsArg V) (okind : OutKind)
    (h1 : isOkE (tofcns A g exprs) = true)
    (h2 : ¬ (okind = OutKind.ntuple ∧ ¬ namesOk (theFcns A g exprs)))
    (h3 : isOkE (compileAll cfg (theAccum A g cfg exprs).branchnames
            (theFcns A g exprs)) = true) :
    iterate A g cfg exprs okind false =
      specDeferredTrace (finishRec okind ((theFcns A g exprs).map (·.dictname)))
        ((srcIterate A cfg (theAccum A g cfg exprs).branchnames
            (theAccum A g cfg exprs).entry).map
          (calcSeq (theCompiled A g cfg exprs))) :=
  iterate_seq_deferred_spec A g cfg exprs okind h1 h2 h3

/-- Witness for C2: three chunks with the evaluator failing on chunk 2 —
chunk 1's record is yielded, the original `TypeError` is raised instead
of chunk 2's record, and chunk 3 is never produced. -/
theorem iterate_sequential_defers_witness :
    iterate arrArith noGlobals cfgThree exprFail OutKind.dict false
      = Trace.errored [Record.mapping [(some "f", some [1])]] PyErr.typeError := by
  rw [iterate_sequential_defers arrArith noGlobals cfgThree exprFail OutKind.dict rfl
    (by simp [theFcns, tofcns, getOkD, namesOk, tofcn]) rfl]
  rfl

/-- Counterexample for C2 as stated over every iterate call: with a
non-`None` `calcexecutor`, the same three-chunk run raises `NameError`
(from the unbound `_delayedraise`) before yielding anything, instead of
following the deferred-error contract.  -/
theorem iterate_executor_no_deferral :
    iterate arrArith noGlobals cfgThree exprFail OutKind.dict true
      = Trace.errored [] PyErr.nameError ∧
    iterate arrArith noGlobals cfgThree exprFail OutKind.dict true
      ≠ specDeferredTrace
          (finishRec OutKind.dict ((theFcns arrArith noGlobals exprFail).map (·.dictname)))
          ((srcIterate arrArith cfgThree (theAccum arrArith noGlobals cfgThree exprFail).branchnames
              (theAccum arrArith noGlobals cfgThree exprFail).entry).map
            (calcSeq (theCompiled arrArith noGlobals cfgThree exprFail))) := by
  constructor
  · rfl
  · decide

/-- C10: every iterate call that supplies a calcexecutor, at least one
output, and at least one chunk raises `NameError` and never yields a
record: the deferred-raise loop applies the module-unbound name
`_delayedraise` to each element of the executor's map result, which is
nonempty even when every per-output evaluation succeeds. -/
theorem iterate_executor_nameError {V : Type} (A : Arith V) (g : String → Option V)
    (cfg : SourceCfg V) (exprs : ExprsArg V) (okind : OutKind)
    (h1 : isOkE (tofcns A g exprs) = true)
    (hne : theFcns A g exprs ≠ [])
    (h2 : ¬ (okind = OutKind.ntuple ∧ ¬ namesOk (theFcns A g exprs)))
    (h3 : isOkE (compileAll cfg (theAccum A g cfg exprs).branchnames
            (theFcns A g exprs)) = true)
    (hch : cfg.chunks ≠ []) :
    iterate A g cfg exprs okind true = Trace.errored [] PyErr.nameError := by
  cases hfc : tofcns A g exprs with
  | error e => rw [hfc] at h1; simp [isOkE] at h1
  | ok fcns =>
    have hF : theFcns A g exprs = fcns := by simp [theFcns, hfc, getOkD]
    have hAcc : theAccum A g cfg exprs = satisfyAll cfg fcns := by
      rw [theAccum, hF]
    cases hcp : compileAll cfg (theAccum A g cfg exprs).branchnames (theFcns A g exprs) with
    | error e => rw [hcp] at h3; simp [isOkE] at h3
    | ok compiled =>
      rw [hF] at h2 hne
      rw [hAcc, hF] at hcp
      rw [iterate_stages A g cfg exprs okind true fcns compiled hfc h2 hcp]
      have hclen : compiled ≠ [] := by
        intro hnil
        have := mapME_ok_length (compileOne cfg (satisfyAll cfg fcns).branchnames) fcns
          compiled hcp
        rw [hnil] at this
        exact hne (List.eq_nil_of_length_eq_zero this.symm)
      cases hck : cfg.chunks with
      | nil => exact absurd hck hch
      | cons ch chs =>
        rw [srcIterate, hck, List.map_cons]
        exact iterLoop_exec_nameError _ compiled hclen _ _

/-- Witness for C10: the three-chunk run with an executor raises
`NameError` with no record yielded. -/
theorem iterate_executor_nameError_witness :
    iterate arrArith noGlobals cfgThree exprFail OutKind.dict true
      = Trace.errored [] PyErr.nameError := by
  exact iterate_executor_nameError arrArith noGlobals cfgThree exprFail OutKind.dict
    rfl (List.cons_ne_nil _ _) (by simp) rfl (List.cons_ne_nil _ _)

theorem iterLoop_records_shape {V : Type} (fin : List (Option V) → Record V)
    (compiled : List (List V → Except PyErr (Option V))) (cexec : Bool) :
    ∀ (chunks : List (List V)) (st : Option (List (Option PyErr) × List (Option V)))
      (acc : List (Record V)) (r : Record V),
      r ∈ (iterLoop fin compiled cexec chunks st acc).records →
      r ∈ acc ∨ ∃ res, r = fin res := by
  intro chunks
  induction chunks with
  | nil =>
    intro st acc r hr
    match st with
    | none =>
      simp only [iterLoop, Trace.records, List.mem_reverse] at hr
      exact Or.inl hr
    | some (excs, results) =>
      simp only [iterLoop] at hr
      cases hd : drainExcs excs with
      | error e =>
        rw [hd] at hr
        simp only [Trace.records, List.mem_reverse] at hr
        exact Or.inl hr
      | ok u =>
        rw [hd] at hr
        simp only [Trace.records, List.mem_append, List.mem_reverse,
          List.mem_singleton] at hr
        rcases hr with hr | hr
        · exact Or.inl hr
        · exact Or.inr ⟨results, hr⟩
  | cons a rest ih =>
    intro st acc r hr
    match st with
    | none =>
      cases cexec with
      | true =>
        simp only [iterLoop, if_pos rfl] at hr
        exact ih _ _ _ hr
      | false =>
        simp only [iterLoop, Bool.false_eq_true, if_false] at hr
        cases hc : calcSeq compiled a with
        | error e =>
          rw [hc] at hr
          simp only [Trace.records, List.mem_reverse] at hr
          exact Or.inl hr
        | ok results =>
          rw [hc] at hr
          exact ih _ _ _ hr
    | some (excs, results) =>
      simp only [iterLoop] at hr
      cases hd : drainExcs excs with
      | error e =>
        rw [hd] at hr
        simp only [Trace.records, List.mem_reverse] at hr
        exact Or.inl hr
      | ok u =>
        rw [hd] at hr
        cases cexec with
        | true =>
          simp only [if_pos rfl] at hr
          rcases ih _ _ _ hr with hmem | hres
          · rcases List.mem_cons.mp hmem with hr2 | hr2
            · exact Or.inr ⟨results, hr2⟩
            · exact Or.inl hr2
          · exact Or.inr hres
        | false =>
          simp only [Bool.false_eq_true, if_false] at hr
          cases hc : calcSeq compiled a with
          | error e =>
            rw [hc] at hr
            simp only [Trace.records, List.mem_reverse, List.mem_cons] at hr
            rcases hr with hr2 | hr2
            · exact Or.inr ⟨results, hr2⟩
            · exact Or.inl hr2
          | ok results' =>
            rw [hc] at hr
            rcases ih _ _ _ hr with hmem | hres
            · rcases List.mem_cons.mp hmem with hr2 | hr2
              · exact Or.inr ⟨results, hr2⟩
              · exact Or.inl hr2
            · exact Or.inr hres

/-- C9: with a namedtuple output container, a display name failing the
identifier validation makes `iterate` fail with `ValueError` before any
chunk is fetched (the trace is the same for every chunk stream and
yields no record); when all display names are legal identifiers, every
yielded record is a namedtuple built from the display names in their
given order. -/
theorem iterate_ntuple_validation {V : Type} (A : Arith V) (g : String → Option V)
    (cfg : SourceCfg V) (exprs : ExprsArg V) (cexec : Bool)
    (h1 : isOkE (tofcns A g exprs) = true) :
    (namesOk (theFcns A g exprs) = false →
      iterate A g cfg exprs OutKind.ntuple cexec = Trace.errored [] PyErr.valueError) ∧
    (namesOk (theFcns A g exprs) = true →
      ∀ r ∈ (iterate A g cfg exprs OutKind.ntuple cexec).records,
        ∃ vs, r = Record.named
          ((((theFcns A g exprs).map (·.dictname)).map (fun o => o.getD "")).zip vs)) := by
  cases hfc : tofcns A g exprs with
  | error e => rw [hfc] at h1; simp [isOkE] at h1
  | ok fcns =>
    have hF : theFcns A g exprs = fcns := by simp [theFcns, hfc, getOkD]
    rw [hF]
    constructor
    · intro hbad
      simp only [iterate, hfc]
      split
      · rfl
      · next hcond => exact absurd ⟨by trivial, by simp [hbad]⟩ hcond
    · intro hgood r hr
      cases hcp : compileAll cfg (satisfyAll cfg fcns).branchnames fcns with
      | error e =>
        simp only [iterate, hfc] at hr
        rw [if_neg (by simp [hgood])] at hr
        simp only [hcp, Trace.records] at hr
        simp at hr
      | ok compiled =>
        rw [iterate_stages A g cfg exprs OutKind.ntuple cexec fcns compiled hfc
          (by simp [hgood]) hcp] at hr
        rcases iterLoop_records_shape _ compiled cexec _ _ _ _ hr with hmem | ⟨res, hres⟩
        · simp at hmem
        · exact ⟨res, hres⟩

/-- The parse of the text `"x + 1"`. -/
def bodyXPlus1 : List Stmt :=
  [Stmt.expr (PExpr.binop BOp.add (PExpr.name "x") (PExpr.num 1))]

/-- Witness for C9: the sole unnamed output `"x + 1"` is not an
identifier, so the namedtuple call fails with `ValueError` and yields
nothing. -/
theorem iterate_ntuple_validation_witness :
    iterate arrArith noGlobals cfgThree
        (ExprsArg.single (ExprIn.text "x + 1" bodyXPlus1)) OutKind.ntuple false
      = Trace.errored [] PyErr.valueError := by
  exact (iterate_ntuple_validation arrArith noGlobals cfgThree
    (ExprsArg.single (ExprIn.text "x + 1" bodyXPlus1)) false rfl).1 rfl

theorem listMap_congr {α β : Type} {f g : α → β} :
    ∀ {l : List α}, (∀ a ∈ l, f a = g a) → l.map f = l.map g := by
  intro l
  induction l with
  | nil => intro _; rfl
  | cons a t ih =>
    intro h
    simp only [List.map_cons]
    rw [h a (List.mem_cons_self a t), ih (fun b hb => h b (List.mem_cons_of_mem a hb))]

/-- C7 (amended): for every chunk stream, iterating with the alias
`r -> c` and requesting output `r` produces a record sequence with
exactly the same values as iterating with no alias and requesting `c`
directly; with a positional output container (`tuple` or `list`) the
record sequences are exactly equal.  (With the mapping container the
records differ only in the display name — see the counterexample.) -/
theorem alias_positional_equiv (chunks : List (Chunk (List Int))) (okind : OutKind)
    (hok : okind = OutKind.tup ∨ okind = OutKind.lst) :
    iterate arrArith noGlobals ⟨[("r", "c")], none, chunks⟩
        (ExprsArg.single (ExprIn.text "r" [Stmt.expr (PExpr.name "r")])) okind false
      = iterate arrArith noGlobals ⟨[], none, chunks⟩
        (ExprsArg.single (ExprIn.text "c" [Stmt.expr (PExpr.name "c")])) okind false := by
  rcases hok with rfl | rfl <;>
  · rw [iterate_seq_deferred_spec arrArith noGlobals ⟨[("r", "c")], none, chunks⟩
        (ExprsArg.single (ExprIn.text "r" [Stmt.expr (PExpr.name "r")])) _ rfl
        (by simp) rfl,
      iterate_seq_deferred_spec arrArith noGlobals ⟨[], none, chunks⟩
        (ExprsArg.single (ExprIn.text "c" [Stmt.expr (PExpr.name "c")])) _ rfl
        (by simp) rfl]
    congr 1
    rw [show srcIterate arrArith (⟨[("r", "c")], none, chunks⟩ : SourceCfg (List Int))
          (theAccum arrArith noGlobals ⟨[("r", "c")], none, chunks⟩
            (ExprsArg.single (ExprIn.text "r" [Stmt.expr (PExpr.name "r")]))).branchnames
          (theAccum arrArith noGlobals ⟨[("r", "c")], none, chunks⟩
            (ExprsArg.single (ExprIn.text "r" [Stmt.expr (PExpr.name "r")]))).entry
        = chunks.map (fun ch => [ch.col "c"]) from rfl,
      show srcIterate arrArith (⟨[], none, chunks⟩ : SourceCfg (List Int))
          (theAccum arrArith noGlobals ⟨[], none, chunks⟩
            (ExprsArg.single (ExprIn.text "c" [Stmt.expr (PExpr.name "c")]))).branchnames
          (theAccum arrArith noGlobals ⟨[], none, chunks⟩
            (ExprsArg.single (ExprIn.text "c" [Stmt.expr (PExpr.name "c")]))).entry
        = chunks.map (fun ch => [ch.col "c"]) from rfl,
      List.map_map, List.map_map]
    apply listMap_congr
    intro ch _
    rfl

/-- Counterexample for C7 as stated: with the default mapping container
the two runs' records are keyed by the display names `"r"` versus
`"c"`, so the record sequences are not exactly equal. -/
theorem alias_dict_keys_differ :
    iterate arrArith noGlobals ⟨[("r", "c")], none, [⟨0, 2, fun _ => [7, 8]⟩]⟩
        (ExprsArg.single (ExprIn.text "r" [Stmt.expr (PExpr.name "r")])) OutKind.dict false
      ≠ iterate arrArith noGlobals ⟨[], none, [⟨0, 2, fun _ => [7, 8]⟩]⟩
        (ExprsArg.single (ExprIn.text "c" [Stmt.expr (PExpr.name "c")])) OutKind.dict false := by
  decide

/-- Witness for C7 at a concrete one-chunk stream with the `tuple`
container: the two record sequences are exactly equal. -/
theorem alias_positional_equiv_witness :
    iterate arrArith noGlobals ⟨[("r", "c")], none, [⟨0, 2, fun _ => [7, 8]⟩]⟩
        (ExprsArg.single (ExprIn.text "r" [Stmt.expr (PExpr.name "r")])) OutKind.tup false
      = iterate arrArith noGlobals ⟨[], none, [⟨0, 2, fun _ => [7, 8]⟩]⟩
        (ExprsArg.single (ExprIn.text "c" [Stmt.expr (PExpr.name "c")])) OutKind.tup false :=
  alias_positional_equiv [⟨0, 2, fun _ => [7, 8]⟩] OutKind.tup (Or.inl rfl)
